import Mathlib

/-!
Verification of the LZW encoder/decoder of this repository.

The Python module src/WORK/lzwcoding.py implements adaptive dictionary
compression (function compress, lines 3-62) and decompression (function
decompress, lines 64-127) over strings.  An earlier draft of the encoder
lives in src/ProgramLZW.py (function compress, lines 1-23).

Embedding conventions:
* a Python string is modelled as a List Char;
* a Python dict is modelled as an association list kept in insertion
  order; assignment d[k] = v updates the entry in place when the key is
  already present and appends the pair otherwise, exactly like a Python
  dict whose iteration order is insertion order;
* a Python exception (KeyError on a string key, KeyError on an integer
  key, IndexError) aborts the call, so each call is modelled as an
  Except value;
* the table_data / decompression_table_data values built by the two
  functions are pretty-printing traces consumed only by the display
  helpers; they carry no information used by any claim and are omitted
  from the model, the rest of the state is carried faithfully.
-/

/-- The Python exceptions the two calls can raise: KeyError with a string
key, KeyError with an integer key, and IndexError. -/
inductive Err where
  | keyErrorStr : List Char → Err
  | keyErrorNat : Nat → Err
  | indexError : Err
deriving DecidableEq

/-- Encoder-side dictionary: sequence → code, in insertion order. -/
abbrev EDict := List (List Char × Nat)

/-- Decoder-side dictionary: code → sequence, in insertion order. -/
abbrev DDict := List (Nat × List Char)

/-- Lookup in an association list, first matching key wins (a Python dict
holds each key once, so this is the dict lookup d[k]). -/
def alookup {α β : Type} [DecidableEq α] (k : α) : List (α × β) → Option β
  | [] => none
  | p :: rest => if p.1 = k then some p.2 else alookup k rest

/-- The Python membership test k in d. -/
def hasKey {α β : Type} [DecidableEq α] (k : α) (d : List (α × β)) : Bool :=
  (alookup k d).isSome

/-- The Python dict assignment d[k] = v: update in place when the key is
present, append otherwise. -/
def dinsert {α β : Type} [DecidableEq α] (d : List (α × β)) (k : α) (v : β) :
    List (α × β) :=
  if hasKey k d then d.map (fun p => if p.1 = k then (k, v) else p)
  else d ++ [(k, v)]

/-- Building a fresh dict by inserting the pairs of a list one by one, in
order.  This models both the comprehension on lines 14-17 of
lzwcoding.py and the copying loop on lines 74-75. -/
def dictCopy {α β : Type} [DecidableEq α] (acc : List (α × β)) :
    List (α × β) → List (α × β)
  | [] => acc
  | p :: rest => dictCopy (dinsert acc p.1 p.2) rest

/-- The mirrored (inverted) table handed to the decoder. -/
def mirror (d : EDict) : DDict := d.map (fun p => (p.2, p.1))

/-- The consecutive codes start, start+1, ..., start+len-1. -/
def consec (start : Nat) : Nat → List Nat
  | 0 => []
  | n + 1 => start :: consec (start + 1) n

/-- The for-loop of compress, lzwcoding.py lines 21-49.  State: the
working dict new_dict, next_code, buffer; the remaining input text.
Returns the codes appended to output_codes by the loop together with the
final dict, next_code and buffer.  In the else branch (lines 32-41) the
entry w+c is stored first, then the code of w is emitted (a KeyError when
w is absent) and the buffer is reset to c. -/
def compressLoop (d : EDict) (nc : Nat) (buf : List Char) :
    List Char → Except Err (List Nat × EDict × Nat × List Char)
  | [] => .ok ([], d, nc, buf)
  | c :: rest =>
    let wc := buf ++ [c]
    if hasKey wc d then
      compressLoop d nc wc rest
    else
      let d2 := dinsert d wc nc
      match alookup buf d2 with
      | none => .error (.keyErrorStr buf)
      | some code =>
        match compressLoop d2 (nc + 1) [c] rest with
        | .error e => .error e
        | .ok (cs, dF, ncF, bufF) => .ok (code :: cs, dF, ncF, bufF)

/-- The loop of compress followed by the final flush, lzwcoding.py lines
21-60: run the loop, then, when the final buffer is non-empty, emit its
code once more (a KeyError when it is absent). -/
def compressFinish (d : EDict) (nc : Nat) (buf : List Char)
    (text : List Char) : Except Err (List Nat × EDict) :=
  match compressLoop d nc buf text with
  | .error e => .error e
  | .ok (codes, dF, _, buffer) =>
    match buffer with
    | [] => .ok (codes, dF)
    | b :: bs =>
      match alookup (b :: bs) dF with
      | none => .error (.keyErrorStr (b :: bs))
      | some code => .ok (codes ++ [code], dF)

/-- compress, lzwcoding.py lines 3-62: copy the initial table, run the
loop from an empty buffer with next_code = 2^size, and flush the final
buffer when it is non-empty (lines 51-60). -/
def compress (text : List Char) (dictionary : EDict) (size : Nat) :
    Except Err (List Nat × EDict) :=
  compressFinish (dictCopy [] dictionary) (2 ^ size) [] text

/-- Entry resolution of decompress, lzwcoding.py lines 102-106: a code
present in the dict resolves to its entry; otherwise the entry is
buffer + buffer[0] (an IndexError when the buffer is empty). -/
def resolveEntry (d : DDict) (buf : List Char) (code : Nat) :
    Except Err (List Char) :=
  match alookup code d with
  | some e => .ok e
  | none =>
    match buf with
    | [] => .error .indexError
    | b :: _ => .ok (buf ++ [b])

/-- The for-loop of decompress, lzwcoding.py lines 97-125.  State: the
working dict new_dict, next_code_val, buffer; the remaining codes.  The
current code is resolved to an entry, then prev_buffer + entry[0] is
stored at next_code_val (lines 111-114, an IndexError when the entry is
empty) and the buffer becomes the entry. -/
def decompressLoop (d : DDict) (nc : Nat) (buf : List Char) :
    List Nat → Except Err (List Char × DDict × Nat × List Char)
  | [] => .ok ([], d, nc, buf)
  | code :: rest =>
    match resolveEntry d buf code with
    | .error e => .error e
    | .ok entry =>
      match entry with
      | [] => .error .indexError
      | e0 :: _ =>
        match decompressLoop (dinsert d nc (buf ++ [e0])) (nc + 1) entry rest with
        | .error e => .error e
        | .ok (out, dF, ncF, bufF) => .ok (entry ++ out, dF, ncF, bufF)

/-- The body of decompress after the working dict has been built:
code_list[0] is read (an IndexError on an empty list, line 82), resolved
through the dict (a KeyError when absent, line 83), and the loop handles
the remaining codes. -/
def decompressBody (codeList : List Nat) (d : DDict) (nc : Nat) :
    Except Err (List Char × DDict) :=
  match codeList with
  | [] => .error .indexError
  | c0 :: rest =>
    match alookup c0 d with
    | none => .error (.keyErrorNat c0)
    | some entry =>
      match decompressLoop d nc entry rest with
      | .error e => .error e
      | .ok (out, dF, _, _) => .ok (entry ++ out, dF)

/-- decompress, lzwcoding.py lines 64-127: next_code_val = 2^size, the
initial code→symbol table is copied pair by pair (lines 74-75), then the
first code and the loop run. -/
def decompress (codeList : List Nat) (initial : DDict) (size : Nat) :
    Except Err (List Char × DDict) :=
  decompressBody codeList (dictCopy [] initial) (2 ^ size)

/-- The for-loop of the draft encoder, src/ProgramLZW.py lines 7-18.
Unlike lzwcoding.py, the learned entries are stored directly into the
caller-supplied dictionary (line 13), and the emitted codes are stored
into a dict keyed by the emitted word (line 16). -/
def plzwLoop (dictionary : EDict) (nc : Nat) (buf : List Char)
    (output : EDict) : List Char → Except Err (EDict × EDict × Nat × List Char)
  | [] => .ok (output, dictionary, nc, buf)
  | c :: rest =>
    let entry := buf ++ [c]
    if hasKey entry dictionary then
      plzwLoop dictionary nc entry output rest
    else
      let d2 := dinsert dictionary entry nc
      match alookup buf d2 with
      | none => .error (.keyErrorStr buf)
      | some code => plzwLoop d2 (nc + 1) [c] (dinsert output buf code) rest

/-- compress of src/ProgramLZW.py lines 1-23: next_code starts at the
hard-coded 256; a non-empty final buffer is flushed into the output dict
(lines 20-21).  The function returns the output dict, and, because the
learned entries were written into the caller-supplied dictionary (line
13), the second component reports the state of that argument after the
call. -/
def plzwCompress (text : List Char) (dictionary : EDict) :
    Except Err (EDict × EDict) :=
  match plzwLoop dictionary 256 [] [] text with
  | .error e => .error e
  | .ok (output, dictAfter, _, buffer) =>
    match buffer with
    | [] => .ok (output, dictAfter)
    | b :: bs =>
      match alookup (b :: bs) dictAfter with
      | none => .error (.keyErrorStr (b :: bs))
      | some code => .ok (dinsert output (b :: bs) code, dictAfter)

/-- The two-symbol initial table {A: 65, B: 66} of the concrete spec
scenarios (encoder direction). -/
def tAB : EDict := [(['A'], 65), (['B'], 66)]

/-- The string of a Lean string literal, as a list of characters. -/
def chars (s : String) : List Char := s.data

theorem alookup_append {α β : Type} [DecidableEq α] (k : α) (d1 d2 : List (α × β)) :
    alookup k (d1 ++ d2) =
      match alookup k d1 with
      | some v => some v
      | none => alookup k d2 := by
  induction d1 with
  | nil => simp [alookup]
  | cons p rest ih =>
    simp only [List.cons_append, alookup]
    by_cases h : p.1 = k <;> simp [h, ih]

theorem alookup_eq_none {α β : Type} [DecidableEq α] {k : α} {d : List (α × β)} :
    alookup k d = none ↔ k ∉ d.map Prod.fst := by
  induction d with
  | nil => simp [alookup]
  | cons p rest ih =>
    by_cases h : p.1 = k
    · simp [alookup, h]
    · simp only [alookup, h, if_neg, List.map_cons, List.mem_cons, ih]
      have : ¬ k = p.1 := fun he => h he.symm
      tauto

theorem hasKey_iff {α β : Type} [DecidableEq α] {k : α} {d : List (α × β)} :
    hasKey k d = true ↔ k ∈ d.map Prod.fst := by
  rw [hasKey, Option.isSome_iff_ne_none]
  constructor
  · intro h
    by_contra hk
    exact h (alookup_eq_none.mpr hk)
  · intro h hn
    exact alookup_eq_none.mp hn h

theorem hasKey_false_iff {α β : Type} [DecidableEq α] {k : α} {d : List (α × β)} :
    hasKey k d = false ↔ k ∉ d.map Prod.fst := by
  rw [← hasKey_iff]
  cases h : hasKey k d <;> simp

theorem alookup_mem {α β : Type} [DecidableEq α] {k : α} {v : β} {d : List (α × β)}
    (h : alookup k d = some v) : (k, v) ∈ d := by
  induction d with
  | nil => simp [alookup] at h
  | cons p rest ih =>
    cases p with
    | mk a b =>
      by_cases hp : a = k
      · simp [alookup, hp] at h
        rw [List.mem_cons]
        left
        rw [hp, h]
      · simp [alookup, hp] at h
        exact List.mem_cons_of_mem _ (ih h)

theorem mem_alookup {α β : Type} [DecidableEq α] {k : α} {v : β} {d : List (α × β)}
    (hnd : (d.map Prod.fst).Nodup) (h : (k, v) ∈ d) : alookup k d = some v := by
  induction d with
  | nil => simp at h
  | cons p rest ih =>
    simp only [List.map_cons, List.nodup_cons] at hnd
    rcases List.mem_cons.mp h with h1 | h1
    · rw [← h1]
      simp [alookup]
    · have hk : p.1 ≠ k := by
        intro he
        exact hnd.1 (he ▸ (List.mem_map.mpr ⟨(k, v), h1, rfl⟩))
      simp [alookup, hk]
      exact ih hnd.2 h1

theorem mirror_keys (d : EDict) : (mirror d).map Prod.fst = d.map Prod.snd := by
  simp [mirror]

theorem mem_mirror {k : List Char} {v : Nat} {d : EDict} :
    (v, k) ∈ mirror d ↔ (k, v) ∈ d := by
  constructor
  · intro h
    rcases List.mem_map.mp h with ⟨p, hp, he⟩
    cases he
    exact hp
  · intro h
    exact List.mem_map.mpr ⟨(k, v), h, rfl⟩

theorem alookup_mirror {k : List Char} {v : Nat} {d : EDict}
    (hvals : (d.map Prod.snd).Nodup) (h : alookup k d = some v) :
    alookup v (mirror d) = some k := by
  apply mem_alookup
  · rw [mirror_keys]
    exact hvals
  · exact mem_mirror.mpr (alookup_mem h)

theorem dinsert_not_mem {α β : Type} [DecidableEq α] {k : α} {d : List (α × β)} (v : β)
    (h : hasKey k d = false) : dinsert d k v = d ++ [(k, v)] := by
  simp [dinsert, h]

theorem dictCopy_eq {α β : Type} [DecidableEq α] :
    ∀ (l acc : List (α × β)), (l.map Prod.fst).Nodup →
      (∀ x ∈ l.map Prod.fst, hasKey x acc = false) →
      dictCopy acc l = acc ++ l := by
  intro l
  induction l with
  | nil => intro acc _ _; simp [dictCopy]
  | cons p rest ih =>
    intro acc hnd hdis
    simp only [List.map_cons, List.nodup_cons] at hnd
    rw [dictCopy, dinsert_not_mem _ (hdis p.1 (by simp)), ih _ hnd.2]
    · simp
    · intro x hx
      rw [hasKey_false_iff]
      simp only [List.map_append, List.mem_append]
      push_neg
      constructor
      · exact hasKey_false_iff.mp (hdis x (by simp [hx]))
      · simp only [List.map_cons, List.map_nil, List.mem_singleton]
        intro he
        exact hnd.1 (he ▸ hx)

theorem dictCopy_nil {α β : Type} [DecidableEq α] (l : List (α × β))
    (hnd : (l.map Prod.fst).Nodup) : dictCopy [] l = l := by
  rw [dictCopy_eq l [] hnd (by intro x _; rfl)]
  simp

theorem dinsert_vals_ne_nil {α β : Type} [DecidableEq α] {d : List (α × List β)}
    {k : α} {v : List β} (hd : ∀ p ∈ d, p.2 ≠ []) (hv : v ≠ []) :
    ∀ p ∈ dinsert d k v, p.2 ≠ [] := by
  intro p hp
  rw [dinsert] at hp
  by_cases hk : hasKey k d
  · simp only [hk, if_pos] at hp
    rcases List.mem_map.mp hp with ⟨q, hq, he⟩
    by_cases hq1 : q.1 = k
    · simp [hq1] at he
      rw [← he]
      exact hv
    · simp [hq1] at he
      rw [← he]
      exact hd q hq
  · simp only [hk, Bool.false_eq_true, if_neg, not_false_eq_true,
      List.mem_append, List.mem_singleton] at hp
    rcases hp with hp | hp
    · exact hd p hp
    · rw [hp]
      exact hv

theorem decompressLoop_total :
    ∀ (codes : List Nat) (d : DDict) (nc : Nat) (buf : List Char),
      buf ≠ [] → (∀ p ∈ d, p.2 ≠ []) →
      ∃ r, decompressLoop d nc buf codes = .ok r := by
  intro codes
  induction codes with
  | nil => intro d nc buf _ _; exact ⟨([], d, nc, buf), rfl⟩
  | cons code rest ih =>
    intro d nc buf hbuf hd
    have hentry : ∃ entry : List Char, entry ≠ [] ∧
        resolveEntry d buf code = Except.ok entry := by
      cases hl : alookup code d with
      | some e =>
        refine ⟨e, ?_, by simp [resolveEntry, hl]⟩
        exact hd (code, e) (alookup_mem hl)
      | none =>
        cases buf with
        | nil => exact absurd rfl hbuf
        | cons b bs => exact ⟨(b :: bs) ++ [b], by simp, by simp [resolveEntry, hl]⟩
    rcases hentry with ⟨entry, hne, hres⟩
    cases entry with
    | nil => exact absurd rfl hne
    | cons e0 es =>
      have hd2 : ∀ p ∈ dinsert d nc (buf ++ [e0]), p.2 ≠ [] := by
        apply dinsert_vals_ne_nil hd
        cases buf <;> simp
      rcases ih (dinsert d nc (buf ++ [e0])) (nc + 1) (e0 :: es) (by simp) hd2 with
        ⟨⟨out, dF, ncF, bufF⟩, hr⟩
      refine ⟨((e0 :: es) ++ out, dF, ncF, bufF), ?_⟩
      rw [decompressLoop, hres]
      simp only
      rw [hr]

theorem compressLoop_learned :
    ∀ (text : List Char) (d : EDict) (nc : Nat) (buf : List Char)
      (cs : List Nat) (dF : EDict) (ncF : Nat) (bufF : List Char),
      compressLoop d nc buf text = .ok (cs, dF, ncF, bufF) →
      ∃ l : EDict, dF = d ++ l ∧ l.map Prod.snd = consec nc l.length ∧
        ncF = nc + l.length ∧ cs.length = l.length := by
  intro text
  induction text with
  | nil =>
    intro d nc buf cs dF ncF bufF h
    rw [compressLoop] at h
    injection h with h
    injection h with h1 h
    injection h with h2 h
    injection h with h3 h4
    exact ⟨[], by simp [← h2], by simp [consec], by simp [← h3], by simp [← h1]⟩
  | cons c rest ih =>
    intro d nc buf cs dF ncF bufF h
    rw [compressLoop] at h
    by_cases hk : hasKey (buf ++ [c]) d
    · simp only [hk, if_pos] at h
      exact ih d nc (buf ++ [c]) cs dF ncF bufF h
    · rw [Bool.not_eq_true] at hk
      simp only [hk, Bool.false_eq_true, if_neg, not_false_eq_true] at h
      rw [dinsert_not_mem nc hk] at h
      cases hl : alookup buf (d ++ [(buf ++ [c], nc)]) with
      | none => rw [hl] at h; exact absurd h (by simp)
      | some code =>
        rw [hl] at h
        cases hrec : compressLoop (d ++ [(buf ++ [c], nc)]) (nc + 1) [c] rest with
        | error e => rw [hrec] at h; exact absurd h (by simp)
        | ok r =>
          obtain ⟨cs', dF', ncF', bufF'⟩ := r
          rw [hrec] at h
          injection h with h
          injection h with h1 h
          injection h with h2 h
          injection h with h3 h4
          rcases ih _ _ _ _ _ _ _ hrec with ⟨l', hl1, hl2, hl3, hl4⟩
          refine ⟨(buf ++ [c], nc) :: l', ?_, ?_, ?_, ?_⟩
          · rw [← h2, hl1]
            simp
          · simp only [List.map_cons, List.length_cons, consec, hl2]
          · rw [← h3, hl3]
            simp only [List.length_cons]
            omega
          · rw [← h1]
            simp [hl4]

theorem decompressLoop_learned :
    ∀ (codes : List Nat) (d : DDict) (nc : Nat) (buf : List Char)
      (out : List Char) (dF : DDict) (ncF : Nat) (bufF : List Char),
      (∀ p ∈ d, p.1 < nc) →
      decompressLoop d nc buf codes = .ok (out, dF, ncF, bufF) →
      ∃ l : DDict, dF = d ++ l ∧ l.map Prod.fst = consec nc l.length ∧
        ncF = nc + l.length ∧ l.length = codes.length := by
  intro codes
  induction codes with
  | nil =>
    intro d nc buf out dF ncF bufF _ h
    rw [decompressLoop] at h
    injection h with h
    injection h with h1 h
    injection h with h2 h
    injection h with h3 h4
    exact ⟨[], by simp [← h2], by simp [consec], by simp [← h3], by simp⟩
  | cons code rest ih =>
    intro d nc buf out dF ncF bufF hb h
    rw [decompressLoop] at h
    cases hres : resolveEntry d buf code with
    | error e => rw [hres] at h; exact absurd h (by simp)
    | ok entry =>
      rw [hres] at h
      cases entry with
      | nil => exact absurd h (by simp)
      | cons e0 es =>
        simp only at h
        have hnc : hasKey nc d = false := by
          rw [hasKey_false_iff]
          intro hmem
          rcases List.mem_map.mp hmem with ⟨p, hp, he⟩
          have := hb p hp
          omega
        rw [dinsert_not_mem (buf ++ [e0]) hnc] at h
        cases hrec : decompressLoop (d ++ [(nc, buf ++ [e0])]) (nc + 1) (e0 :: es) rest with
        | error e => rw [hrec] at h; exact absurd h (by simp)
        | ok r =>
          obtain ⟨out', dF', ncF', bufF'⟩ := r
          rw [hrec] at h
          injection h with h
          injection h with h1 h
          injection h with h2 h
          injection h with h3 h4
          have hb2 : ∀ p ∈ d ++ [(nc, buf ++ [e0])], p.1 < nc + 1 := by
            intro p hp
            rcases List.mem_append.mp hp with hp | hp
            · have := hb p hp
              omega
            · simp only [List.mem_singleton] at hp
              rw [hp]
              omega
          rcases ih _ _ _ _ _ _ _ hb2 hrec with ⟨l', hl1, hl2, hl3, hl4⟩
          refine ⟨(nc, buf ++ [e0]) :: l', ?_, ?_, ?_, ?_⟩
          · rw [← h2, hl1]
            simp
          · simp only [List.map_cons, List.length_cons, consec, hl2]
          · rw [← h3, hl3]
            simp only [List.length_cons]
            omega
          · simp [hl4]

theorem compressFinish_cons_if (d : EDict) (nc : Nat) (buf : List Char)
    (c : Char) (rest : List Char) (hk : hasKey (buf ++ [c]) d = true) :
    compressFinish d nc buf (c :: rest) = compressFinish d nc (buf ++ [c]) rest := by
  rw [compressFinish, compressFinish, compressLoop]
  simp only [hk, if_pos]

theorem compressFinish_cons_else (d : EDict) (nc : Nat) (buf : List Char)
    (c : Char) (rest : List Char) (code : Nat) (e : Err)
    (hk : hasKey (buf ++ [c]) d = false)
    (hl : alookup buf (d ++ [(buf ++ [c], nc)]) = some code)
    (he : compressFinish (d ++ [(buf ++ [c], nc)]) (nc + 1) [c] rest = .error e) :
    compressFinish d nc buf (c :: rest) = .error e := by
  rw [compressFinish] at he ⊢
  rw [compressLoop]
  simp only [hk, Bool.false_eq_true, if_neg, not_false_eq_true]
  rw [dinsert_not_mem nc hk, hl]
  cases hrec : compressLoop (d ++ [(buf ++ [c], nc)]) (nc + 1) [c] rest with
  | error e2 =>
    rw [hrec] at he
    simp only at he
    injection he with he
    rw [he]
  | ok r =>
    obtain ⟨cs2, dF2, ncF2, bufF2⟩ := r
    rw [hrec] at he
    simp only at he
    cases bufF2 with
    | nil => exact absurd he (by simp)
    | cons b bs =>
      simp only at he ⊢
      cases hfl : alookup (b :: bs) dF2 with
      | none =>
        simp only [hfl] at he ⊢
        exact he
      | some cd =>
        rw [hfl] at he
        exact absurd he (by simp)

theorem compressFinish_err_badBuf (good : Char → Prop) (d : EDict) (nc : Nat)
    (x : Char) (text : List Char) (hx : ¬ good x)
    (hk0 : ∀ p ∈ d, ∃ g gs, p.1 = g :: gs ∧ good g) :
    ∃ e, compressFinish d nc [x] text = .error e := by
  cases text with
  | nil =>
    rw [compressFinish, compressLoop]
    simp only
    cases hl : alookup [x] d with
    | some v =>
      rcases hk0 ([x], v) (alookup_mem hl) with ⟨g, gs, hg, hgood⟩
      injection hg with hg1 hg2
      rw [← hg1] at hgood
      exact absurd hgood hx
    | none =>
      exact ⟨.keyErrorStr [x], rfl⟩
  | cons c2 rest =>
    rw [compressFinish, compressLoop]
    have hk : hasKey ([x] ++ [c2]) d = false := by
      rw [hasKey_false_iff]
      intro hmem
      rcases List.mem_map.mp hmem with ⟨p, hp, he⟩
      rcases hk0 p hp with ⟨g, gs, hg, hgood⟩
      rw [hg] at he
      injection he with he1 he2
      rw [he1] at hgood
      exact hx hgood
    simp only [hk, Bool.false_eq_true, if_neg, not_false_eq_true]
    rw [dinsert_not_mem nc hk]
    have hl : alookup [x] (d ++ [([x] ++ [c2], nc)]) = none := by
      rw [alookup_append]
      have h1 : alookup [x] d = none := by
        rw [alookup_eq_none]
        intro hmem
        rcases List.mem_map.mp hmem with ⟨p, hp, he⟩
        rcases hk0 p hp with ⟨g, gs, hg, hgood⟩
        rw [hg] at he
        injection he with he1 he2
        rw [he1] at hgood
        exact hx hgood
      rw [h1]
      simp [alookup]
    rw [hl]
    exact ⟨.keyErrorStr [x], rfl⟩

theorem compressFinish_err (good : Char → Prop) :
    ∀ (text : List Char) (d : EDict) (nc : Nat) (buf : List Char),
      (∀ p ∈ d, p.1 ≠ [] ∧ ∀ ch ∈ p.1, good ch) →
      (∀ ch ∈ buf, good ch) →
      (∃ c ∈ text, ¬ good c) →
      ∃ e, compressFinish d nc buf text = .error e := by
  intro text
  induction text with
  | nil =>
    intro d nc buf _ _ hbad
    rcases hbad with ⟨c, hc, _⟩
    exact absurd hc (by simp)
  | cons c rest ih =>
    intro d nc buf hk hbuf hbad
    by_cases hgc : good c
    · have hbad2 : ∃ c2 ∈ rest, ¬ good c2 := by
        rcases hbad with ⟨c2, hc2, hbadc2⟩
        rcases List.mem_cons.mp hc2 with he | hm
        · rw [he] at hbadc2
          exact absurd hgc hbadc2
        · exact ⟨c2, hm, hbadc2⟩
      by_cases hky : hasKey (buf ++ [c]) d = true
      · rw [compressFinish_cons_if d nc buf c rest hky]
        apply ih d nc (buf ++ [c]) hk _ hbad2
        intro ch hch
        rcases List.mem_append.mp hch with hm | hm
        · exact hbuf ch hm
        · simp only [List.mem_singleton] at hm
          rw [hm]
          exact hgc
      · rw [Bool.not_eq_true] at hky
        cases hl : alookup buf (d ++ [(buf ++ [c], nc)]) with
        | none =>
          refine ⟨.keyErrorStr buf, ?_⟩
          rw [compressFinish, compressLoop]
          simp only [hky, Bool.false_eq_true, if_neg, not_false_eq_true]
          rw [dinsert_not_mem nc hky, hl]
        | some code =>
          have hk2 : ∀ p ∈ d ++ [(buf ++ [c], nc)], p.1 ≠ [] ∧ ∀ ch ∈ p.1, good ch := by
            intro p hp
            rcases List.mem_append.mp hp with hm | hm
            · exact hk p hm
            · simp only [List.mem_singleton] at hm
              rw [hm]
              refine ⟨by cases buf <;> simp, ?_⟩
              intro ch hch
              rcases List.mem_append.mp hch with hm2 | hm2
              · exact hbuf ch hm2
              · simp only [List.mem_singleton] at hm2
                rw [hm2]
                exact hgc
          rcases ih (d ++ [(buf ++ [c], nc)]) (nc + 1) [c] hk2
            (by intro ch hch; simp only [List.mem_singleton] at hch; rw [hch]; exact hgc)
            hbad2 with ⟨e, he⟩
          exact ⟨e, compressFinish_cons_else d nc buf c rest code e hky hl he⟩
    · cases hbufc : buf with
      | nil =>
        refine ⟨.keyErrorStr [], ?_⟩
        rw [compressFinish, compressLoop]
        have hky : hasKey ([] ++ [c]) d = false := by
          rw [hasKey_false_iff]
          intro hmem
          rcases List.mem_map.mp hmem with ⟨p, hp, he⟩
          rcases hk p hp with ⟨hne, hgood⟩
          apply hgc
          apply hgood
          rw [he]
          simp
        simp only [hky, Bool.false_eq_true, if_neg, not_false_eq_true]
        rw [dinsert_not_mem nc hky]
        have hl : alookup ([] : List Char) (d ++ [([] ++ [c], nc)]) = none := by
          rw [alookup_append]
          have h1 : alookup ([] : List Char) d = none := by
            rw [alookup_eq_none]
            intro hmem
            rcases List.mem_map.mp hmem with ⟨p, hp, he⟩
            exact (hk p hp).1 he
          rw [h1]
          simp [alookup]
        rw [hl]
      | cons b bs =>
        have hky : hasKey ((b :: bs) ++ [c]) d = false := by
          rw [hasKey_false_iff]
          intro hmem
          rcases List.mem_map.mp hmem with ⟨p, hp, he⟩
          apply hgc
          apply (hk p hp).2
          rw [he]
          simp
        cases hl : alookup (b :: bs) (d ++ [((b :: bs) ++ [c], nc)]) with
        | none =>
          refine ⟨.keyErrorStr (b :: bs), ?_⟩
          rw [compressFinish, compressLoop]
          simp only [hky, Bool.false_eq_true, if_neg, not_false_eq_true]
          rw [dinsert_not_mem nc hky, hl]
        | some code =>
          have hk2 : ∀ p ∈ d ++ [((b :: bs) ++ [c], nc)],
              ∃ g gs, p.1 = g :: gs ∧ good g := by
            intro p hp
            rcases List.mem_append.mp hp with hm | hm
            · rcases hk p hm with ⟨hne, hgood⟩
              cases hp1 : p.1 with
              | nil => exact absurd hp1 hne
              | cons g gs =>
                refine ⟨g, gs, rfl, ?_⟩
                apply hgood
                rw [hp1]
                simp
            · simp only [List.mem_singleton] at hm
              rw [hm]
              refine ⟨b, bs ++ [c], by simp, ?_⟩
              apply hbuf
              rw [hbufc]
              simp
          rcases compressFinish_err_badBuf good (d ++ [((b :: bs) ++ [c], nc)])
            (nc + 1) c rest hgc hk2 with ⟨e, he⟩
          exact ⟨e, compressFinish_cons_else d nc (b :: bs) c rest code e hky hl he⟩

theorem alookup_append_left {α β : Type} [DecidableEq α] {k : α} {v : β}
    {d : List (α × β)} (l : List (α × β)) (h : alookup k d = some v) :
    alookup k (d ++ l) = some v := by
  rw [alookup_append, h]

theorem hasKey_append_left {α β : Type} [DecidableEq α] {k : α}
    {d : List (α × β)} (l : List (α × β)) (h : hasKey k d = true) :
    hasKey k (d ++ l) = true := by
  rw [hasKey_iff] at h ⊢
  simp only [List.map_append, List.mem_append]
  exact Or.inl h

theorem hasKey_some {α β : Type} [DecidableEq α] {k : α} {d : List (α × β)}
    (h : hasKey k d = true) : ∃ v, alookup k d = some v := by
  rw [hasKey, Option.isSome_iff_exists] at h
  exact h

theorem mirror_append (d0 : EDict) (k : List Char) (v : Nat) :
    mirror (d0 ++ [(k, v)]) = mirror d0 ++ [(v, k)] := by
  simp [mirror]

theorem mirror_fresh (d0 : EDict) (ncd : Nat) (hbound : ∀ p ∈ d0, p.2 < ncd) :
    hasKey ncd (mirror d0) = false := by
  rw [hasKey_false_iff, mirror_keys]
  intro hmem
  rcases List.mem_map.mp hmem with ⟨p, hp, he⟩
  have := hbound p hp
  omega

theorem alookup_mirror_none (d0 : EDict) (ncd : Nat)
    (hbound : ∀ p ∈ d0, p.2 < ncd) : alookup ncd (mirror d0) = none := by
  rw [alookup_eq_none, mirror_keys]
  intro hmem
  rcases List.mem_map.mp hmem with ⟨p, hp, he⟩
  have := hbound p hp
  omega

theorem resolve_sync (d0 : EDict) (bufD : List Char) (h : Char) (bt : List Char)
    (ncd cE : Nat)
    (hvals : (d0.map Prod.snd).Nodup)
    (hbound : ∀ p ∈ d0, p.2 < ncd)
    (hbufD : bufD ≠ [])
    (hlk : alookup (h :: bt) (d0 ++ [(bufD ++ [h], ncd)]) = some cE) :
    resolveEntry (mirror d0) bufD cE = .ok (h :: bt) := by
  rw [alookup_append] at hlk
  cases hl0 : alookup (h :: bt) d0 with
  | some v =>
    rw [hl0] at hlk
    simp only at hlk
    injection hlk with hv
    rw [hv] at hl0
    have hm := alookup_mirror hvals hl0
    simp [resolveEntry, hm]
  | none =>
    rw [hl0] at hlk
    simp only [alookup] at hlk
    by_cases hkey : bufD ++ [h] = h :: bt
    · simp only [hkey, if_pos] at hlk
      injection hlk with hv
      have hnone := alookup_mirror_none d0 ncd hbound
      cases hbD : bufD with
      | nil => exact absurd hbD hbufD
      | cons b bs =>
        rw [hbD] at hkey
        have hb : b = h := by
          simp only [List.cons_append] at hkey
          injection hkey with h1 h2
        rw [← hv]
        simp only [resolveEntry, hnone, hbD]
        rw [hb] at hkey ⊢
        rw [hkey]
    · simp only [hkey, if_neg, not_false_eq_true] at hlk
      exact absurd hlk (by simp)

theorem decompressLoop_cons (d : DDict) (nc : Nat) (buf : List Char) (code : Nat)
    (rest : List Nat) (e0 : Char) (es : List Char)
    (hres : resolveEntry d buf code = .ok (e0 :: es)) :
    decompressLoop d nc buf (code :: rest) =
      match decompressLoop (dinsert d nc (buf ++ [e0])) (nc + 1) (e0 :: es) rest with
      | .error e => .error e
      | .ok (out, dF, ncF, bufF) => .ok ((e0 :: es) ++ out, dF, ncF, bufF) := by
  rw [decompressLoop, hres]

theorem nodup_snoc {α : Type} {l : List α} {a : α} (h : l.Nodup) (ha : a ∉ l) :
    (l ++ [a]).Nodup := by
  rw [List.nodup_append]
  refine ⟨h, List.nodup_singleton a, ?_⟩
  intro x hx hxa
  simp only [List.mem_singleton] at hxa
  rw [hxa] at hx
  exact ha hx

theorem simLoop :
    ∀ (rest : List Char) (d0 : EDict) (bufD : List Char) (h : Char)
      (bt : List Char) (ncd : Nat),
      ((d0 ++ [(bufD ++ [h], ncd)]).map Prod.fst).Nodup →
      (d0.map Prod.snd).Nodup →
      (∀ p ∈ d0, p.2 < ncd) →
      bufD ≠ [] →
      hasKey (h :: bt) (d0 ++ [(bufD ++ [h], ncd)]) = true →
      (∀ c ∈ rest, hasKey [c] (d0 ++ [(bufD ++ [h], ncd)]) = true) →
      ∃ cs dF ncF bufF cF ddF ncdF,
        compressLoop (d0 ++ [(bufD ++ [h], ncd)]) (ncd + 1) (h :: bt) rest =
          .ok (cs, dF, ncF, bufF) ∧
        bufF ≠ [] ∧
        alookup bufF dF = some cF ∧
        decompressLoop (mirror d0) ncd bufD (cs ++ [cF]) =
          .ok ((h :: bt) ++ rest, ddF, ncdF, bufF) := by
  intro rest
  induction rest with
  | nil =>
    intro d0 bufD h bt ncd hkeys hvals hbound hbufD hbufE hchars
    rcases hasKey_some hbufE with ⟨cF, hcF⟩
    refine ⟨[], d0 ++ [(bufD ++ [h], ncd)], ncd + 1, h :: bt, cF,
      dinsert (mirror d0) ncd (bufD ++ [h]), ncd + 1, rfl, by simp, hcF, ?_⟩
    have hstep := decompressLoop_cons (mirror d0) ncd bufD cF [] h bt
      (resolve_sync d0 bufD h bt ncd cF hvals hbound hbufD hcF)
    simp only [List.nil_append]
    rw [hstep, decompressLoop]
  | cons c rest' ih =>
    intro d0 bufD h bt ncd hkeys hvals hbound hbufD hbufE hchars
    by_cases hkwc : hasKey (h :: (bt ++ [c])) (d0 ++ [(bufD ++ [h], ncd)]) = true
    · have ih2 := ih d0 bufD h (bt ++ [c]) ncd hkeys hvals hbound hbufD hkwc
        (fun c2 hc2 => hchars c2 (by simp [hc2]))
      rcases ih2 with ⟨cs, dF, ncF, bufF, cF, ddF, ncdF, h1, h2, h3, h4⟩
      refine ⟨cs, dF, ncF, bufF, cF, ddF, ncdF, ?_, h2, h3, ?_⟩
      · rw [compressLoop]
        simp only [List.cons_append, hkwc, if_pos]
        exact h1
      · have heq : (h :: (bt ++ [c])) ++ rest' = (h :: bt) ++ (c :: rest') := by
          simp
        rw [← heq]
        exact h4
    · rw [Bool.not_eq_true] at hkwc
      rcases hasKey_some hbufE with ⟨cE, hcE⟩
      have hkeys2 :
          (((d0 ++ [(bufD ++ [h], ncd)]) ++ [((h :: bt) ++ [c], ncd + 1)]).map
            Prod.fst).Nodup := by
        simp only [List.map_append, List.map_cons, List.map_nil]
        apply nodup_snoc
        · simpa using hkeys
        · intro hmem
          have : hasKey ((h :: bt) ++ [c]) (d0 ++ [(bufD ++ [h], ncd)]) = true := by
            rw [hasKey_iff]
            simpa using hmem
          rw [List.cons_append] at this
          rw [this] at hkwc
          exact absurd hkwc (by simp)
      have hvals2 : ((d0 ++ [(bufD ++ [h], ncd)]).map Prod.snd).Nodup := by
        simp only [List.map_append, List.map_cons, List.map_nil]
        apply nodup_snoc hvals
        intro hmem
        rcases List.mem_map.mp hmem with ⟨p, hp, he⟩
        have := hbound p hp
        omega
      have hbound2 : ∀ p ∈ d0 ++ [(bufD ++ [h], ncd)], p.2 < ncd + 1 := by
        intro p hp
        rcases List.mem_append.mp hp with hm | hm
        · have := hbound p hm
          omega
        · simp only [List.mem_singleton] at hm
          rw [hm]
          omega
      have hbufE2 :
          hasKey [c] ((d0 ++ [(bufD ++ [h], ncd)]) ++ [((h :: bt) ++ [c], ncd + 1)]) =
            true :=
        hasKey_append_left _ (hchars c (by simp))
      have hchars2 : ∀ c2 ∈ rest',
          hasKey [c2]
            ((d0 ++ [(bufD ++ [h], ncd)]) ++ [((h :: bt) ++ [c], ncd + 1)]) = true :=
        fun c2 hc2 => hasKey_append_left _ (hchars c2 (by simp [hc2]))
      have ih2 := ih (d0 ++ [(bufD ++ [h], ncd)]) (h :: bt) c [] (ncd + 1)
        hkeys2 hvals2 hbound2 (by simp) hbufE2 hchars2
      rcases ih2 with ⟨cs', dF, ncF, bufF, cF, ddF, ncdF, h1, h2, h3, h4⟩
      refine ⟨cE :: cs', dF, ncF, bufF, cF, ddF, ncdF, ?_, h2, h3, ?_⟩
      · rw [compressLoop]
        simp only [List.cons_append, hkwc, Bool.false_eq_true, if_neg,
          not_false_eq_true]
        have hkwc2 : hasKey (h :: (bt ++ [c])) (d0 ++ [(bufD ++ [h], ncd)]) = false := hkwc
        rw [dinsert_not_mem (ncd + 1) hkwc2]
        have hcE2 : alookup (h :: bt)
            ((d0 ++ [(bufD ++ [h], ncd)]) ++ [(h :: (bt ++ [c]), ncd + 1)]) =
            some cE := alookup_append_left _ hcE
        rw [hcE2]
        simp only [List.cons_append] at h1
        rw [h1]
      · have hstep := decompressLoop_cons (mirror d0) ncd bufD cE (cs' ++ [cF]) h bt
          (resolve_sync d0 bufD h bt ncd cE hvals hbound hbufD hcE)
        rw [List.cons_append, hstep]
        have hins : dinsert (mirror d0) ncd (bufD ++ [h]) =
            mirror (d0 ++ [(bufD ++ [h], ncd)]) := by
          rw [dinsert_not_mem _ (mirror_fresh d0 ncd hbound), mirror_append]
        rw [hins, h4]
        simp

theorem simStart :
    ∀ (rest : List Char) (T : EDict) (nc0 : Nat) (buf : List Char),
      (T.map Prod.fst).Nodup →
      (T.map Prod.snd).Nodup →
      (∀ p ∈ T, p.2 < nc0) →
      buf ≠ [] →
      hasKey buf T = true →
      (∀ c ∈ rest, hasKey [c] T = true) →
      ∃ cs dF ncF bufF cF ddF,
        compressLoop T nc0 buf rest = .ok (cs, dF, ncF, bufF) ∧
        bufF ≠ [] ∧
        alookup bufF dF = some cF ∧
        decompressBody (cs ++ [cF]) (mirror T) nc0 = .ok (buf ++ rest, ddF) := by
  intro rest
  induction rest with
  | nil =>
    intro T nc0 buf hkeys hvals hbound hbufne hbuf hchars
    rcases hasKey_some hbuf with ⟨cF, hcF⟩
    refine ⟨[], T, nc0, buf, cF, mirror T, rfl, hbufne, hcF, ?_⟩
    rw [List.nil_append, decompressBody, alookup_mirror hvals hcF]
    simp only
    rw [decompressLoop]
  | cons c rest' ih =>
    intro T nc0 buf hkeys hvals hbound hbufne hbuf hchars
    by_cases hkwc : hasKey (buf ++ [c]) T = true
    · rcases ih T nc0 (buf ++ [c]) hkeys hvals hbound (by cases buf <;> simp)
        hkwc (fun c2 hc2 => hchars c2 (by simp [hc2])) with
        ⟨cs, dF, ncF, bufF, cF, ddF, h1, h2, h3, h4⟩
      refine ⟨cs, dF, ncF, bufF, cF, ddF, ?_, h2, h3, ?_⟩
      · rw [compressLoop]
        simp only [hkwc, if_pos]
        exact h1
      · have heq : (buf ++ [c]) ++ rest' = buf ++ (c :: rest') := by simp
        rw [← heq]
        exact h4
    · rw [Bool.not_eq_true] at hkwc
      rcases hasKey_some hbuf with ⟨cE, hcE⟩
      have hkeys2 : ((T ++ [(buf ++ [c], nc0)]).map Prod.fst).Nodup := by
        simp only [List.map_append, List.map_cons, List.map_nil]
        apply nodup_snoc hkeys
        intro hmem
        have : hasKey (buf ++ [c]) T = true := by
          rw [hasKey_iff]
          simpa using hmem
        rw [this] at hkwc
        exact absurd hkwc (by simp)
      have hbufE2 : hasKey [c] (T ++ [(buf ++ [c], nc0)]) = true :=
        hasKey_append_left _ (hchars c (by simp))
      have hchars2 : ∀ c2 ∈ rest', hasKey [c2] (T ++ [(buf ++ [c], nc0)]) = true :=
        fun c2 hc2 => hasKey_append_left _ (hchars c2 (by simp [hc2]))
      rcases simLoop rest' T buf c [] nc0 hkeys2 hvals hbound hbufne hbufE2
        hchars2 with ⟨cs', dF, ncF, bufF, cF, ddF, ncdF, h1, h2, h3, h4⟩
      refine ⟨cE :: cs', dF, ncF, bufF, cF, ddF, ?_, h2, h3, ?_⟩
      · rw [compressLoop]
        simp only [hkwc, Bool.false_eq_true, if_neg, not_false_eq_true]
        rw [dinsert_not_mem nc0 hkwc]
        rw [alookup_append_left _ hcE]
        rw [h1]
      · rw [List.cons_append, decompressBody, alookup_mirror hvals hcE]
        simp only
        rw [h4]
        simp

/-- C1, amended: the round trip holds for every non-empty symbol
sequence.  For every non-empty text whose symbols are single-character
keys of the initial table, with distinct keys, distinct codes and all
codes below 2 to the width, compress succeeds and decompress of the
emitted codes against the mirrored table with the same width returns
exactly the original text.  (For the empty sequence the claim fails:
decompress raises an IndexError on the empty code list.) -/
theorem compress_decompress_roundtrip (S : List Char) (T : EDict) (k : Nat)
    (hS : S ≠ [])
    (hchars : ∀ c ∈ S, hasKey [c] T = true)
    (hkeys : (T.map Prod.fst).Nodup)
    (hvals : (T.map Prod.snd).Nodup)
    (hbound : ∀ p ∈ T, p.2 < 2 ^ k) :
    ∃ codes dE dD,
      compress S T k = .ok (codes, dE) ∧
      decompress codes (mirror T) k = .ok (S, dD) := by
  cases S with
  | nil => exact absurd rfl hS
  | cons c rest =>
    have hcopyE : dictCopy ([] : EDict) T = T := dictCopy_nil T hkeys
    have hcopyD : dictCopy ([] : DDict) (mirror T) = mirror T := by
      apply dictCopy_nil
      rw [mirror_keys]
      exact hvals
    rcases simStart rest T (2 ^ k) [c] hkeys hvals hbound (by simp)
      (hchars c (by simp)) (fun c2 hc2 => hchars c2 (by simp [hc2])) with
      ⟨cs, dF, ncF, bufF, cF, ddF, h1, h2, h3, h4⟩
    refine ⟨cs ++ [cF], dF, ddF, ?_, ?_⟩
    · rw [compress, hcopyE, compressFinish, compressLoop]
      simp only [List.nil_append, hchars c (by simp), if_pos]
      rw [h1]
      simp only
      cases hbF : bufF with
      | nil => rw [hbF] at h2; exact absurd rfl h2
      | cons b bs =>
        rw [hbF] at h3
        simp only
        rw [h3]
    · rw [decompress, hcopyD]
      simpa using h4

theorem compressFinish_dict (d : EDict) (nc : Nat) (buf text : List Char)
    (codes : List Nat) (dF : EDict)
    (h : compressFinish d nc buf text = .ok (codes, dF)) :
    ∃ cs ncF bufF, compressLoop d nc buf text = .ok (cs, dF, ncF, bufF) := by
  rw [compressFinish] at h
  cases hloop : compressLoop d nc buf text with
  | error e => rw [hloop] at h; exact absurd h (by simp)
  | ok r =>
    obtain ⟨cs, dF2, ncF, bufF⟩ := r
    rw [hloop] at h
    simp only at h
    cases bufF with
    | nil =>
      injection h with h
      injection h with h1 h2
      rw [← h2]
      exact ⟨cs, ncF, [], rfl⟩
    | cons b bs =>
      simp only at h
      cases hfl : alookup (b :: bs) dF2 with
      | none =>
        rw [hfl] at h
        exact absurd h (by simp)
      | some cd =>
        rw [hfl] at h
        simp only at h
        injection h with h
        injection h with h1 h2
        rw [← h2]
        exact ⟨cs, ncF, b :: bs, rfl⟩

/-- C1, counterexample to the claim as stated: the round trip does not
hold for the empty sequence.  compress of the empty text returns the
empty code list, but decompress of the empty code list raises an
IndexError at code_list[0] instead of returning the empty sequence. -/
theorem c1_empty_roundtrip_fails :
    compress [] tAB 8 = .ok ([], tAB) ∧
    decompress [] (mirror tAB) 8 = .error .indexError ∧
    (decompress [] (mirror tAB) 8).isOk = false :=
  ⟨rfl, rfl, rfl⟩

/-- C2, counterexample: on input ABABABA with initial table {A: 65,
B: 66} and width 8, compress emits [65, 66, 256, 258] and not the
[65, 66, 256, 257, 65] stated by the claim. -/
theorem c2_encode_codes_differ :
    compress (chars "ABABABA") tAB 8 =
      .ok ([65, 66, 256, 258],
        tAB ++ [(chars "AB", 256), (chars "BA", 257), (chars "ABA", 258)]) ∧
    ([65, 66, 256, 258] : List Nat) ≠ [65, 66, 256, 257, 65] :=
  ⟨rfl, by decide⟩

/-- C2, amended: compress applied to ABABABA with initial table
{A: 65, B: 66} and width 8 (next_code starting at 256) emits exactly
[65, 66, 256, 258]; the dictionary gains 256 = AB, 257 = BA and
258 = ABA, and the final flush emits the trailing match ABA as 258
(the flushed buffer ABA holds code 258 in the final dictionary). -/
theorem c2_encode_scenario :
    compress (chars "ABABABA") tAB 8 =
      .ok ([65, 66, 256, 258],
        tAB ++ [(chars "AB", 256), (chars "BA", 257), (chars "ABA", 258)]) ∧
    alookup (chars "ABA")
      (tAB ++ [(chars "AB", 256), (chars "BA", 257), (chars "ABA", 258)]) =
      some 258 :=
  ⟨rfl, rfl⟩

/-- C6, counterexample: decompress applied to the empty code list does
not return the empty sequence; it raises an IndexError reading
code_list[0]. -/
theorem c6_empty_decompress_raises :
    decompress [] (mirror tAB) 8 = .error .indexError ∧
    ([] : List Nat) = [] :=
  ⟨rfl, rfl⟩

/-- C6, amended: compress on the empty text returns the empty code list
(no flush emission) without raising, for every initial table and width;
decompress on the empty code list always raises an IndexError (the
unguarded read of code_list[0]) instead of returning the empty
sequence. -/
theorem c6_empty_input :
    (∀ (T : EDict) (k : Nat), compress [] T k = .ok ([], dictCopy [] T)) ∧
    (∀ (D : DDict) (k : Nat), decompress [] D k = .error .indexError) :=
  ⟨fun _ _ => rfl, fun _ _ => rfl⟩

/-- C7: decompress applied to [65, 66, 256, 258] with the mirrored table
{65: A, 66: B} and width 8 decodes to ABABABA without error; when 258
arrives it is absent from the dictionary while next_code is exactly 258,
so the self-reference branch reconstructs the entry as
previous_entry ++ previous_entry[0], that is AB ++ A. -/
theorem c7_decode_scenario :
    decompress [65, 66, 256, 258] (mirror tAB) 8 =
      .ok (chars "ABABABA",
        mirror tAB ++
          [(256, chars "AB"), (257, chars "BA"), (258, chars "ABA")]) ∧
    alookup 258 (mirror tAB ++ [(256, chars "AB"), (257, chars "BA")]) = none ∧
    decompressLoop (mirror tAB ++ [(256, chars "AB"), (257, chars "BA")]) 258
        (chars "AB") [258] =
      .ok (chars "AB" ++ ['A'],
        mirror tAB ++
          [(256, chars "AB"), (257, chars "BA"), (258, chars "AB" ++ ['A'])],
        259, chars "AB" ++ ['A']) :=
  ⟨rfl, rfl, rfl⟩

/-- C4, counterexample: the code 999 is neither in the decoder's
dictionary nor equal to the current next_code 256, yet decompress of
[65, 999] returns normally with the garbage output AAA instead of
failing; no CorruptStream check exists in the code. -/
theorem c4_corrupt_stream_accepted :
    hasKey 999 (mirror tAB) = false ∧
    (999 : Nat) ≠ 256 ∧
    decompress [65, 999] (mirror tAB) 8 =
      .ok (chars "AAA", mirror tAB ++ [(256, chars "AA")]) ∧
    (decompress [65, 999] (mirror tAB) 8).isOk = true :=
  ⟨rfl, by decide, rfl, rfl⟩

/-- C4, amended: decompress performs no malformed-stream check at all.
After the first code, any code absent from the dictionary, whether or
not it equals next_code, is handled by the self-reference branch: the
step decodes it as buffer ++ buffer[0] and the loop returns normally
(garbage) whenever the buffer is non-empty and every stored entry is
non-empty, instead of failing with a CorruptStream error. -/
theorem c4_no_corrupt_check (d : DDict) (nc : Nat) (b : Char) (bs : List Char)
    (code : Nat) (codes : List Nat)
    (habsent : alookup code d = none)
    (hvals : ∀ p ∈ d, p.2 ≠ []) :
    ∃ restOut dF ncF bufF,
      decompressLoop d nc (b :: bs) (code :: codes) =
        .ok (((b :: bs) ++ [b]) ++ restOut, dF, ncF, bufF) := by
  have hres : resolveEntry d (b :: bs) code = .ok (b :: (bs ++ [b])) := by
    simp [resolveEntry, habsent]
  have hstep := decompressLoop_cons d nc (b :: bs) code codes b (bs ++ [b]) hres
  have hvals2 : ∀ p ∈ dinsert d nc ((b :: bs) ++ [b]), p.2 ≠ [] :=
    dinsert_vals_ne_nil hvals (by simp)
  rcases decompressLoop_total codes (dinsert d nc ((b :: bs) ++ [b])) (nc + 1)
      (b :: (bs ++ [b])) (by simp) (by simpa using hvals2) with
    ⟨⟨out, dF, ncF, bufF⟩, hr⟩
  refine ⟨out, dF, ncF, bufF, ?_⟩
  rw [hstep]
  simp only [List.cons_append] at hr ⊢
  rw [hr]

/-- C4, witness for the amended theorem at a concrete malformed stream:
from the state reached after the first code 65, the unknown code 999 is
decoded by the self-reference branch and the loop returns normally. -/
theorem c4_no_corrupt_check_witness :
    ∃ restOut dF ncF bufF,
      decompressLoop (mirror tAB) 256 ['A'] [999] =
        .ok ((['A'] ++ ['A']) ++ restOut, dF, ncF, bufF) :=
  c4_no_corrupt_check (mirror tAB) 256 'A' [] 999 [] rfl (by decide)

/-- C5, counterexample: compress on a text with a symbol outside the
initial table does not raise a typed InvalidInput error; it aborts with
a plain KeyError lookup fault, here on the key for the empty buffer
(input X) and on the key for the unknown symbol itself (input AXA). -/
theorem c5_lookup_fault_not_typed :
    compress (chars "X") tAB 8 = .error (.keyErrorStr []) ∧
    compress (chars "AXA") tAB 8 = .error (.keyErrorStr ['X']) :=
  ⟨rfl, rfl⟩

/-- C5, amended: for every text containing a symbol absent from the
initial table (whose keys are single symbols), compress fails, but with
an untyped KeyError lookup fault rather than an explicit InvalidInput
error. -/
theorem c5_unknown_symbol_fails (text : List Char) (T : EDict) (k : Nat)
    (hsingle : ∀ p ∈ T, p.1.length = 1)
    (hkeys : (T.map Prod.fst).Nodup)
    (hbad : ∃ c ∈ text, hasKey [c] T = false) :
    ∃ e, compress text T k = .error e := by
  have hsingle2 : ∀ p ∈ T, ∃ ch, p.1 = [ch] := by
    intro p hp
    have hlen := hsingle p hp
    cases hp1 : p.1 with
    | nil => rw [hp1] at hlen; simp at hlen
    | cons ch tl =>
      rw [hp1] at hlen
      simp only [List.length_cons] at hlen
      have htl : tl = [] := List.length_eq_zero.mp (by omega)
      exact ⟨ch, by rw [htl]⟩
  rw [compress, dictCopy_nil T hkeys]
  apply compressFinish_err (fun ch => hasKey [ch] T = true) text T (2 ^ k) []
  · intro p hp
    rcases hsingle2 p hp with ⟨ch, hch⟩
    refine ⟨by rw [hch]; simp, ?_⟩
    intro ch2 hch2
    rw [hch] at hch2
    simp only [List.mem_singleton] at hch2
    rw [hch2, hasKey_iff]
    apply List.mem_map.mpr
    exact ⟨p, hp, by rw [hch]⟩
  · intro ch hch
    exact absurd hch (by simp)
  · rcases hbad with ⟨c, hc, hcf⟩
    refine ⟨c, hc, ?_⟩
    rw [hcf]
    simp

/-- C5, witness for the amended theorem: compress of AXA over the table
{A: 65, B: 66} fails. -/
theorem c5_unknown_symbol_fails_witness :
    ∃ e, compress (chars "AXA") tAB 8 = .error e :=
  c5_unknown_symbol_fails (chars "AXA") tAB 8 (by decide) (by decide)
    ⟨'X', by decide, by decide⟩

/-- C1, witness: the round trip at the concrete input ABABABA with
table {A: 65, B: 66} and width 8. -/
theorem compress_decompress_roundtrip_witness :
    ∃ codes dE dD,
      compress (chars "ABABABA") tAB 8 = .ok (codes, dE) ∧
      decompress codes (mirror tAB) 8 = .ok (chars "ABABABA", dD) :=
  compress_decompress_roundtrip (chars "ABABABA") tAB 8 (by decide)
    (by decide) (by decide) (by decide) (by decide)

theorem plzwLoop_extends :
    ∀ (text : List Char) (d : EDict) (nc : Nat) (buf : List Char)
      (output out dA : EDict) (ncF : Nat) (bufF : List Char),
      plzwLoop d nc buf output text = .ok (out, dA, ncF, bufF) →
      ∃ l, dA = d ++ l := by
  intro text
  induction text with
  | nil =>
    intro d nc buf output out dA ncF bufF h
    rw [plzwLoop] at h
    injection h with h
    injection h with h1 h
    injection h with h2 h
    exact ⟨[], by simp [← h2]⟩
  | cons c rest ih =>
    intro d nc buf output out dA ncF bufF h
    rw [plzwLoop] at h
    by_cases hk : hasKey (buf ++ [c]) d = true
    · simp only [hk, if_pos] at h
      exact ih d nc (buf ++ [c]) output out dA ncF bufF h
    · rw [Bool.not_eq_true] at hk
      simp only [hk, Bool.false_eq_true, if_neg, not_false_eq_true] at h
      rw [dinsert_not_mem nc hk] at h
      cases hl : alookup buf (d ++ [(buf ++ [c], nc)]) with
      | none => rw [hl] at h; exact absurd h (by simp)
      | some code =>
        rw [hl] at h
        simp only at h
        rcases ih _ _ _ _ _ _ _ _ h with ⟨l, hl1⟩
        refine ⟨(buf ++ [c], nc) :: l, ?_⟩
        rw [hl1]
        simp

/-- C3, counterexample: encode AB with table {A: 65, B: 66} and width
8.  Immediately after the first code 65 is emitted the encoder's
dictionary already holds 3 entries (AB = 256 is stored on lines 33-35
before the emission on lines 37-38), while the decoder's dictionary
after processing that first code still holds only the 2 initial
entries. -/
theorem c3_growth_off_by_one :
    compressLoop tAB 256 [] (chars "AB") =
      .ok ([65], tAB ++ [(chars "AB", 256)], 257, ['B']) ∧
    (tAB ++ [(chars "AB", 256)]).length = 3 ∧
    decompress [65] (mirror tAB) 8 = .ok (['A'], mirror tAB) ∧
    (mirror tAB).length = 2 ∧
    (2 : Nat) ≠ 3 :=
  ⟨rfl, rfl, rfl, rfl, by decide⟩

/-- C3, amended: within the encoder loop the dictionary size always
equals the initial size plus the number of codes emitted so far, because
the new entry is stored before each emission (so immediately after the
i-th loop emission the size is the initial size plus i, and the final
flush adds nothing); the decoder's dictionary grows by exactly one entry
per code processed after the first, so after i codes its size is the
initial size plus i minus one — one less than the encoder's size right
after the corresponding in-loop emission, with equality only at the
final flushed code. -/
theorem c3_growth_parity_amended :
    (∀ (text : List Char) (d : EDict) (nc : Nat) (buf : List Char)
        (cs : List Nat) (dF : EDict) (ncF : Nat) (bufF : List Char),
        compressLoop d nc buf text = .ok (cs, dF, ncF, bufF) →
        dF.length = d.length + cs.length) ∧
    (∀ (codes : List Nat) (d : DDict) (nc : Nat) (buf : List Char)
        (out : List Char) (dF : DDict) (ncF : Nat) (bufF : List Char),
        (∀ p ∈ d, p.1 < nc) →
        decompressLoop d nc buf codes = .ok (out, dF, ncF, bufF) →
        dF.length = d.length + codes.length) := by
  constructor
  · intro text d nc buf cs dF ncF bufF h
    rcases compressLoop_learned text d nc buf cs dF ncF bufF h with
      ⟨l, h1, _, _, h4⟩
    rw [h1, List.length_append, h4]
  · intro codes d nc buf out dF ncF bufF hb h
    rcases decompressLoop_learned codes d nc buf out dF ncF bufF hb h with
      ⟨l, h1, _, _, h4⟩
    rw [h1, List.length_append, h4]

/-- C3, witness for the amended theorem: the encoder loop on AB emits
one code and ends with 3 = 2 + 1 entries; the decoder loop dealing with
the single code 66 from buffer A ends with 3 = 2 + 1 entries. -/
theorem c3_growth_parity_amended_witness :
    (tAB ++ [(chars "AB", 256)]).length = tAB.length + [65].length ∧
    (mirror tAB ++ [(256, chars "AB")]).length =
      (mirror tAB).length + [66].length :=
  ⟨c3_growth_parity_amended.1 (chars "AB") tAB 256 [] [65]
      (tAB ++ [(chars "AB", 256)]) 257 ['B'] rfl,
    c3_growth_parity_amended.2 [66] (mirror tAB) 256 ['A'] ['B']
      (mirror tAB ++ [(256, chars "AB")]) 257 ['B'] (by decide) rfl⟩

/-- C8, counterexample: compress of src/ProgramLZW.py called on ABABABA
with the caller's dictionary {A: 65, B: 66} leaves that dictionary
holding the learned entries AB = 256, BA = 257, ABA = 258 after the
call, so the caller-supplied initial table is modified. -/
theorem c8_caller_table_mutated :
    plzwCompress (chars "ABABABA") tAB =
      .ok ([(chars "A", 65), (chars "B", 66), (chars "AB", 256),
            (chars "ABA", 258)],
        tAB ++ [(chars "AB", 256), (chars "BA", 257), (chars "ABA", 258)]) ∧
    tAB ++ [(chars "AB", 256), (chars "BA", 257), (chars "ABA", 258)] ≠ tAB :=
  ⟨rfl, by decide⟩

/-- C8, amended: lzwcoding's compress works on a fresh copy of the
initial table (lines 14-17) and only extends it, leaving the caller's
argument untouched, and its decompress likewise builds a fresh dict; but
the draft compress of src/ProgramLZW.py writes the learned entries into
the caller-supplied dictionary itself, which after the call holds its
previous entries followed by the learned ones. -/
theorem c8_initial_table_ownership :
    (∀ (text : List Char) (T : EDict) (k : Nat) (codes : List Nat) (dF : EDict),
        (T.map Prod.fst).Nodup →
        compress text T k = .ok (codes, dF) →
        ∃ l, dF = T ++ l) ∧
    (∀ (text : List Char) (T output dA : EDict),
        plzwCompress text T = .ok (output, dA) →
        ∃ l, dA = T ++ l) := by
  constructor
  · intro text T k codes dF hkeys h
    rw [compress, dictCopy_nil T hkeys] at h
    rcases compressFinish_dict T (2 ^ k) [] text codes dF h with
      ⟨cs, ncF, bufF, hloop⟩
    rcases compressLoop_learned text T (2 ^ k) [] cs dF ncF bufF hloop with
      ⟨l, h1, _, _, _⟩
    exact ⟨l, h1⟩
  · intro text T output dA h
    rw [plzwCompress] at h
    cases hloop : plzwLoop T 256 [] [] text with
    | error e => rw [hloop] at h; exact absurd h (by simp)
    | ok r =>
      obtain ⟨out0, dA0, ncF, bufF⟩ := r
      rw [hloop] at h
      simp only at h
      cases bufF with
      | nil =>
        injection h with h
        injection h with h1 h2
        rw [← h2]
        exact plzwLoop_extends text T 256 [] [] out0 dA0 ncF [] hloop
      | cons b bs =>
        simp only at h
        cases hfl : alookup (b :: bs) dA0 with
        | none => rw [hfl] at h; exact absurd h (by simp)
        | some code =>
          rw [hfl] at h
          simp only at h
          injection h with h
          injection h with h1 h2
          rw [← h2]
          exact plzwLoop_extends text T 256 [] [] out0 dA0 ncF (b :: bs) hloop

/-- C8, witness for the amended theorem: lzwcoding's compress of A
returns a dict extending {A: 65, B: 66}, and the draft compress of
ABABABA leaves the caller's dictionary equal to the initial entries
followed by the learned ones. -/
theorem c8_initial_table_ownership_witness :
    (∃ l, tAB = tAB ++ l) ∧
    (∃ l, tAB ++ [(chars "AB", 256), (chars "BA", 257), (chars "ABA", 258)] =
        tAB ++ l) :=
  ⟨c8_initial_table_ownership.1 (chars "A") tAB 8 [65] tAB (by decide) rfl,
    c8_initial_table_ownership.2 (chars "ABABABA") tAB
      [(chars "A", 65), (chars "B", 66), (chars "AB", 256), (chars "ABA", 258)]
      (tAB ++ [(chars "AB", 256), (chars "BA", 257), (chars "ABA", 258)]) rfl⟩

/-- C9: within a single call the codes assigned to newly learned
sequences are exactly the consecutive run next_code, next_code + 1, ...
starting at 2 to the width — hence strictly increasing and unique, with
next_code advancing by exactly one per admitted sequence.  This holds
for the dictionary returned by compress (learned suffix of string-to-
code pairs) and for the one returned by decompress (learned suffix of
code-to-string pairs). -/
theorem c9_learned_codes_consecutive :
    (∀ (text : List Char) (T : EDict) (k : Nat) (codes : List Nat) (dF : EDict),
        (T.map Prod.fst).Nodup →
        compress text T k = .ok (codes, dF) →
        ∃ l, dF = T ++ l ∧ l.map Prod.snd = consec (2 ^ k) l.length) ∧
    (∀ (codes : List Nat) (D : DDict) (k : Nat) (out : List Char) (dF : DDict),
        (D.map Prod.fst).Nodup →
        (∀ p ∈ D, p.1 < 2 ^ k) →
        decompress codes D k = .ok (out, dF) →
        ∃ l, dF = D ++ l ∧ l.map Prod.fst = consec (2 ^ k) l.length) := by
  constructor
  · intro text T k codes dF hkeys h
    rw [compress, dictCopy_nil T hkeys] at h
    rcases compressFinish_dict T (2 ^ k) [] text codes dF h with
      ⟨cs, ncF, bufF, hloop⟩
    rcases compressLoop_learned text T (2 ^ k) [] cs dF ncF bufF hloop with
      ⟨l, h1, h2, _, _⟩
    exact ⟨l, h1, h2⟩
  · intro codes D k out dF hkeys hb h
    rw [decompress, dictCopy_nil D hkeys] at h
    cases codes with
    | nil =>
      rw [decompressBody] at h
      exact absurd h (by simp)
    | cons c0 rest =>
      rw [decompressBody] at h
      cases hl : alookup c0 D with
      | none => rw [hl] at h; exact absurd h (by simp)
      | some entry =>
        rw [hl] at h
        simp only at h
        cases hloop : decompressLoop D (2 ^ k) entry rest with
        | error e => rw [hloop] at h; exact absurd h (by simp)
        | ok r =>
          obtain ⟨out2, dF2, ncF2, bufF2⟩ := r
          rw [hloop] at h
          simp only at h
          injection h with h
          injection h with h1 h2
          rcases decompressLoop_learned rest D (2 ^ k) entry out2 dF2 ncF2
            bufF2 hb hloop with ⟨l, hl1, hl2, _, _⟩
          exact ⟨l, by rw [← h2, hl1], hl2⟩

/-- C9, witness: the concrete run on ABABABA, both directions.  The
learned suffixes carry exactly the codes 256, 257, 258. -/
theorem c9_learned_codes_consecutive_witness :
    (∃ l, tAB ++ [(chars "AB", 256), (chars "BA", 257), (chars "ABA", 258)] =
        tAB ++ l ∧ l.map Prod.snd = consec (2 ^ 8) l.length) ∧
    (∃ l, mirror tAB ++
          [(256, chars "AB"), (257, chars "BA"), (258, chars "ABA")] =
        mirror tAB ++ l ∧ l.map Prod.fst = consec (2 ^ 8) l.length) :=
  ⟨c9_learned_codes_consecutive.1 (chars "ABABABA") tAB 8 [65, 66, 256, 258]
      (tAB ++ [(chars "AB", 256), (chars "BA", 257), (chars "ABA", 258)])
      (by decide) rfl,
    c9_learned_codes_consecutive.2 [65, 66, 256, 258] (mirror tAB) 8
      (chars "ABABABA")
      (mirror tAB ++ [(256, chars "AB"), (257, chars "BA"), (258, chars "ABA")])
      (by decide) (by decide) rfl⟩

/-- C10: when the code list is non-empty, its first code is a key of the
initial table, and every entry of the initial table is a non-empty
string, decompress runs to completion — every buffer and every computed
entry stays non-empty, so the indexings buffer[0] and entry[0] never
raise and the call returns a result.  (The initial table is a Python
dict, so its keys are pairwise distinct.) -/
theorem c10_decompress_indexing_safe (codes : List Nat) (D : DDict) (k : Nat)
    (c0 : Nat) (cs : List Nat)
    (hcodes : codes = c0 :: cs)
    (hfirst : hasKey c0 D = true)
    (hkeys : (D.map Prod.fst).Nodup)
    (hvals : ∀ p ∈ D, p.2 ≠ []) :
    ∃ r, decompress codes D k = .ok r := by
  subst hcodes
  rw [decompress, dictCopy_nil D hkeys, decompressBody]
  rcases hasKey_some hfirst with ⟨entry, hentry⟩
  rw [hentry]
  simp only
  have hene : entry ≠ [] := hvals (c0, entry) (alookup_mem hentry)
  rcases decompressLoop_total cs D (2 ^ k) entry hene hvals with
    ⟨⟨out, dF, ncF, bufF⟩, hr⟩
  rw [hr]
  exact ⟨(entry ++ out, dF), rfl⟩

/-- C10, witness: the concrete stream [65, 66, 256, 258] against the
mirrored two-symbol table decodes to a result. -/
theorem c10_decompress_indexing_safe_witness :
    ∃ r, decompress [65, 66, 256, 258] (mirror tAB) 8 = .ok r :=
  c10_decompress_indexing_safe [65, 66, 256, 258] (mirror tAB) 8 65
    [66, 256, 258] rfl (by decide) (by decide) (by decide)
